import Mathlib

/-!
Verification of the spiral room-tiling engine in `src/assignment2.py`
(`room_tiling_spiral.py`).  The Python program fills an `m × n` room with
square tiles of sizes 4, 3, 2, 1 (largest first), visiting candidate
anchors per size in a ring-peeling order (`spiral_tile_anchors`), and
records a snapshot of the grid after every successful placement
(`fill_room_spiral_tile_anchors_animated`).

Embedding choices:
* `range(a, b, step)` becomes `pyRangeUp` / `pyRangeDown`, using Python's
  documented semantics: element `i` is `start + i*step`, the length is
  `max 0 (ceil ((stop - start)/step))`.
* The while-loop of `spiral_tile_anchors` becomes `spiralLoopF` with an
  explicit iteration budget; `spiralLoopF_congr` shows every budget of at
  least `(right - left).toNat + 1` iterations yields the same list, so the
  wrapper `spiral_tile_anchors` (budget `n + 1`) computes the loop's value.
* The numpy grid becomes a total function `Nat → Nat → Nat`; `grid.copy()`
  snapshots become list entries holding the grid value at that moment.
  Anchor coordinates (Python ints) stay in `Int` and are converted with
  `Int.toNat` at the grid boundary; the theorem on anchor bounds shows all
  generated anchors are nonnegative and in range, so the conversion is
  faithful to the numpy indexing in the source.
-/

namespace RoomTiling

/-- Length of the Python range `range(start, stop, step)` for a positive
`step`: `max 0 (ceil ((stop - start) / step))`. -/
def rangeLen (start stop step : Int) : Nat :=
  (stop - start + step - 1).toNat / step.toNat

/-- Python `range(start, stop, step)` for `step ≥ 1`: the ascending list
`[start, start + step, ...]` of all elements below `stop`. -/
def pyRangeUp (start stop step : Int) : List Int :=
  (List.range (rangeLen start stop step)).map (fun i : Nat => start + (i : Int) * step)

/-- Python `range(start, stop, -step)` for `step ≥ 1`: the descending list
`[start, start - step, ...]` of all elements above `stop`. -/
def pyRangeDown (start stop step : Int) : List Int :=
  (List.range (rangeLen stop start step)).map (fun i : Nat => start - (i : Int) * step)

/-- One ring of `spiral_tile_anchors` (src/assignment2.py lines 59-71):
bottom row left→right, right column upwards starting at `bottom - s`, then
(when `top < bottom`) top row leftwards starting at `right - s`, then
(when `left < right`) left column downwards from `top + s` to `bottom - 1`. -/
def ringEdges (s top bottom left right : Int) : List (Int × Int) :=
  (pyRangeUp left (right + 1) s).map (fun j => (bottom, j)) ++
  (pyRangeDown (bottom - s) (top - 1) s).map (fun i => (i, right)) ++
  (if top < bottom then (pyRangeDown (right - s) (left - 1) s).map (fun j => (top, j)) else []) ++
  (if left < right then (pyRangeUp (top + s) bottom s).map (fun i => (i, left)) else [])

/-- While-loop of `spiral_tile_anchors` with an explicit iteration budget:
the loop runs while `left ≤ right ∧ top ≤ bottom`, emits one ring, and
shrinks all four bounds by `s`. -/
def spiralLoopF (s : Int) : Nat → Int → Int → Int → Int → List (Int × Int)
  | 0, _, _, _, _ => []
  | fuel + 1, top, bottom, left, right =>
    if left ≤ right ∧ top ≤ bottom then
      ringEdges s top bottom left right ++
        spiralLoopF s fuel (top + s) (bottom - s) (left + s) (right - s)
    else []

/-- Iteration budget sufficient for the while-loop starting from column
bounds `left`, `right`. -/
def loopFuel (left right : Int) : Nat := (right - left).toNat + 1

/-- Translation of `spiral_tile_anchors(m, n, tile_size)`
(src/assignment2.py lines 54-76): ring bounds start at `top = 0`,
`bottom = m - tile_size`, `left = 0`, `right = n - tile_size`. -/
def spiral_tile_anchors (m n tile_size : Nat) : List (Int × Int) :=
  spiralLoopF tile_size (n + 1) 0 ((m : Int) - tile_size) 0 ((n : Int) - tile_size)

/-- Count of the arithmetic progression `a, a + s, a + 2s, ...` restricted
to values at most `b` (step `s ≥ 1`).  With arguments swapped it also
counts a descending progression `b, b - s, ...` restricted to values at
least `a`. -/
def apCount (a b s : Int) : Nat :=
  if a ≤ b then ((b - a).toNat / s.toNat) + 1 else 0

/-- Reference definition from spec §3 (SpiralAnchorSequence): anchors
along the bottom edge of a ring, visited left→right with step `s`:
columns `left, left + s, ... ≤ right`, row `bottom`. -/
def specBottomEdge (s bottom left right : Int) : List (Int × Int) :=
  (List.range (apCount left right s)).map (fun k : Nat => (bottom, left + (k : Int) * s))

/-- Reference definition from spec §3: anchors along the right edge,
visited bottom→top with step `s`.  The corner row `bottom` belongs to the
bottom edge already traversed, so the rows are `bottom - s, bottom - 2s,
... ≥ top`, column `right`. -/
def specRightEdge (s top bottom right : Int) : List (Int × Int) :=
  (List.range (apCount top (bottom - s) s)).map
    (fun k : Nat => (bottom - s - (k : Int) * s, right))

/-- Reference definition from spec §3: anchors along the top edge, visited
right→left with step `s` (only if `top < bottom`).  The corner column
`right` belongs to the right edge already traversed, so the columns are
`right - s, right - 2s, ... ≥ left`, row `top`. -/
def specTopEdge (s top left right : Int) : List (Int × Int) :=
  (List.range (apCount left (right - s) s)).map
    (fun k : Nat => (top, right - s - (k : Int) * s))

/-- Reference definition from spec §3: anchors along the left edge,
visited top→bottom with step `s` (only if `left < right`).  The corner
rows `top` and `bottom` belong to the horizontal edges already traversed,
so the rows are `top + s, top + 2s, ... ≤ bottom - 1`, column `left`. -/
def specLeftEdge (s top bottom left : Int) : List (Int × Int) :=
  (List.range (apCount (top + s) (bottom - 1) s)).map
    (fun k : Nat => (top + s + (k : Int) * s, left))

/-- Reference definition from spec §3: one ring of the
SpiralAnchorSequence: bottom edge, then right edge, then top edge (only if
`top < bottom`), then left edge (only if `left < right`). -/
def specRing (s top bottom left right : Int) : List (Int × Int) :=
  specBottomEdge s bottom left right ++ specRightEdge s top bottom right ++
  (if top < bottom then specTopEdge s top left right else []) ++
  (if left < right then specLeftEdge s top bottom left else [])

/-- Reference definition from spec §3: ring peeling: while
`left ≤ right ∧ top ≤ bottom`, emit a ring and shrink all four bounds by
`s` (with the same iteration budget as the implementation loop). -/
def specSpiralF (s : Int) : Nat → Int → Int → Int → Int → List (Int × Int)
  | 0, _, _, _, _ => []
  | fuel + 1, top, bottom, left, right =>
    if left ≤ right ∧ top ≤ bottom then
      specRing s top bottom left right ++
        specSpiralF s fuel (top + s) (bottom - s) (left + s) (right - s)
    else []

/-- Reference definition from spec §3: the SpiralAnchorSequence for grid
dimensions `height × width` and tile size `s`: starting ring bounds
`top = 0, bottom = height - s, left = 0, right = width - s`. -/
def specSpiralAnchorSequence (height width s : Nat) : List (Int × Int) :=
  specSpiralF s (width + 1) 0 ((height : Int) - s) 0 ((width : Int) - s)

/-- The numpy grid `np.zeros((m, n))` as a total function `row ↦ col ↦
value`; cells outside the `m × n` window are never touched because all
generated anchors are proven in range. -/
abbrev Grid := Nat → Nat → Nat

def zeroGrid : Grid := fun _ _ => 0

/-- Translation of the slice assignment `grid[x:x+size, y:y+size] = size`
(`place_tile`, and src/assignment2.py lines 86 and 91). -/
def placeTile (g : Grid) (x y s : Nat) : Grid := fun r c =>
  if x ≤ r ∧ r < x + s ∧ y ≤ c ∧ c < y + s then s else g r c

/-- Footprint-emptiness test `np.all(grid[x:x+size, y:y+size] == 0)`
(src/assignment2.py line 90). -/
abbrev EmptyFoot (g : Grid) (x y s : Nat) : Prop :=
  ∀ dr < s, ∀ dc < s, g (x + dr) (y + dc) = 0

/-- A successful placement event: anchor `(x, y)` and tile size `s`
(ghost instrumentation recording what the engine did). -/
structure Placement where
  x : Nat
  y : Nat
  s : Nat
  deriving DecidableEq

/-- Engine state of `fill_room_spiral_tile_anchors_animated`: the mutable
grid, the snapshot list `steps`, and the ghost list of placements made so
far. -/
structure TState where
  grid : Grid
  steps : List Grid
  events : List Placement

/-- Grid obtained by replaying a list of placements on the zero grid. -/
def applyPlacements (L : List Placement) : Grid :=
  L.foldl (fun g e => placeTile g e.x e.y e.s) zeroGrid

/-- Body of the anchor loop in `fill_room_spiral_tile_anchors_animated`
(src/assignment2.py lines 83-92): for size 1 a tile is placed whenever the
cell is empty; for larger sizes the top-left cell must be empty and then
bounds and footprint emptiness are checked.  A successful placement writes
the footprint and appends `grid.copy()` to `steps` (the snapshot is the
grid value at that moment). -/
def stepA (m n size : Nat) (st : TState) (a : Int × Int) : TState :=
  let x := a.1.toNat
  let y := a.2.toNat
  if size = 1 then
    if st.grid x y = 0 then
      ⟨placeTile st.grid x y 1, st.steps ++ [placeTile st.grid x y 1],
        st.events ++ [⟨x, y, 1⟩]⟩
    else st
  else
    if st.grid x y = 0 then
      if x + size ≤ m ∧ y + size ≤ n ∧ EmptyFoot st.grid x y size then
        ⟨placeTile st.grid x y size, st.steps ++ [placeTile st.grid x y size],
          st.events ++ [⟨x, y, size⟩]⟩
      else st
    else st

/-- Tile sizes tried in order (src/assignment2.py line 20). -/
def TILE_SIZES : List Nat := [4, 3, 2, 1]

/-- One full pass of the engine for a single tile size. -/
def runSize (m n size : Nat) (st : TState) : TState :=
  (spiral_tile_anchors m n size).foldl (stepA m n size) st

/-- Full engine state after processing all sizes 4, 3, 2, 1. -/
def fillState (m n : Nat) : TState :=
  TILE_SIZES.foldl (fun st size => runSize m n size st) ⟨zeroGrid, [], []⟩

/-- Translation of `fill_room_spiral_tile_anchors_animated(m, n)`
(src/assignment2.py lines 78-93): the returned value is the snapshot list
`steps`. -/
def fill_room_spiral_tile_anchors_animated (m n : Nat) : List Grid :=
  (fillState m n).steps

/-- Grid contents at the end of the run. -/
def finalGrid (m n : Nat) : Grid := (fillState m n).grid

/-- Engine state just before the size-1 pass begins (sizes 4, 3, 2 done). -/
def preOneState (m n : Nat) : TState :=
  runSize m n 2 (runSize m n 3 (runSize m n 4 ⟨zeroGrid, [], []⟩))

/-- Model of `main` (src/assignment2.py lines 158-166).  The two `input`
parses become `Option Int` arguments (`none` = `int()` raised
`ValueError`, which `main` catches, reporting the message and returning
before any tiling); `np.zeros` raises `ValueError` on a negative
dimension, modelled by the second error case; otherwise `main` calls the
engine on `(height, width)` and no error is ever reported. -/
def mainModel (widthIn heightIn : Option Int) : Except String (List Grid) :=
  match widthIn, heightIn with
  | none, _ => .error "Invalid input. Please enter integer values."
  | some _, none => .error "Invalid input. Please enter integer values."
  | some w, some h =>
    if h < 0 ∨ w < 0 then .error "ValueError: negative dimensions are not allowed"
    else .ok (fill_room_spiral_tile_anchors_animated h.toNat w.toNat)

/-- The `m × n` index window as a finite set. -/
def window (m n : Nat) : Finset (Nat × Nat) := Finset.range m ×ˢ Finset.range n

/-- Number of nonzero (covered) cells of the grid inside the window. -/
def countNonzero (m n : Nat) (g : Grid) : Nat :=
  ((window m n).filter (fun p => g p.1 p.2 ≠ 0)).card

/-- Number of zero (empty) cells of the grid inside the window. -/
def emptyCount (m n : Nat) (g : Grid) : Nat :=
  ((window m n).filter (fun p => g p.1 p.2 = 0)).card

/-- Membership of cell `(r, c)` in the footprint of a placement. -/
def InFoot (e : Placement) (r c : Nat) : Prop :=
  e.x ≤ r ∧ r < e.x + e.s ∧ e.y ≤ c ∧ c < e.y + e.s

/-- Relation between consecutive snapshots: the next snapshot is obtained
by one placement of a tile of some size `1 ≤ s ≤ 4` whose footprint lies
inside the room and was entirely empty just before. -/
def PlacementStepRel (m n : Nat) (g gNext : Grid) : Prop :=
  ∃ x y s, 1 ≤ s ∧ s ≤ 4 ∧ x + s ≤ m ∧ y + s ≤ n ∧ EmptyFoot g x y s ∧
    gNext = placeTile g x y s

/-- The grid `g` is exactly tiled by the placement list `L`: footprints
are in range with positive sizes, pairwise disjoint, every nonzero cell
lies in one of them, and each footprint's cells all hold its tile size. -/
def TiledBy (m n : Nat) (L : List Placement) (g : Grid) : Prop :=
  (∀ e ∈ L, e.x + e.s ≤ m ∧ e.y + e.s ≤ n ∧ 1 ≤ e.s) ∧
  List.Pairwise (fun a b => ∀ r c, InFoot a r c → ¬ InFoot b r c) L ∧
  (∀ r c, g r c ≠ 0 → ∃ e ∈ L, InFoot e r c) ∧
  (∀ e ∈ L, ∀ r c, InFoot e r c → g r c = e.s)

/-- Invariant carried through the engine fold: snapshots form a placement
chain from the zero grid, the grid is the last snapshot (or the zero grid
when no snapshot exists yet), the grid is the replay of the recorded
events, snapshot `i` is the replay of the first `i + 1` events, and every
event-list prefix exactly tiles its replay. -/
def EngineInv (m n : Nat) (st : TState) : Prop :=
  List.Chain' (PlacementStepRel m n) (zeroGrid :: st.steps) ∧
  (zeroGrid :: st.steps).getLast? = some st.grid ∧
  st.grid = applyPlacements st.events ∧
  st.steps.length = st.events.length ∧
  (∀ i (h : i < st.steps.length),
      st.steps.get ⟨i, h⟩ = applyPlacements (st.events.take (i + 1))) ∧
  (∀ k, TiledBy m n (st.events.take k) (applyPlacements (st.events.take k)))

theorem fillState_eq_runSize_one (m n : Nat) :
    fillState m n = runSize m n 1 (preOneState m n) := rfl

theorem rangeLen_mul_le {start stop step : Int} (hs : 1 ≤ step) {i : Nat}
    (hi : i < rangeLen start stop step) :
    ((i : Int) + 1) * step ≤ stop - start + step - 1 := by
  have hK : 0 < step.toNat := by omega
  have h1 : (i + 1) * step.toNat ≤ (stop - start + step - 1).toNat := by
    have h2 := (Nat.le_div_iff_mul_le hK).1 (Nat.succ_le_of_lt hi)
    simpa [rangeLen] using h2
  have hKc : ((step.toNat : Nat) : Int) = step := Int.toNat_of_nonneg (by omega)
  rcases le_or_lt 0 (stop - start + step - 1) with hpos | hneg
  · have h3 := Int.ofNat_le.2 h1
    rwa [Int.toNat_of_nonneg hpos, Nat.cast_mul, Nat.cast_add, Nat.cast_one, hKc] at h3
  · exfalso
    have hz : (stop - start + step - 1).toNat = 0 := by omega
    rw [hz, Nat.le_zero] at h1
    have hpos2 : 0 < (i + 1) * step.toNat := Nat.mul_pos (by omega) hK
    omega

theorem mem_pyRangeUp_bounds {start stop step x : Int} (hs : 1 ≤ step)
    (hx : x ∈ pyRangeUp start stop step) : start ≤ x ∧ x < stop := by
  simp only [pyRangeUp, List.mem_map, List.mem_range] at hx
  obtain ⟨i, hi, rfl⟩ := hx
  have hmul := rangeLen_mul_le hs hi
  have hnn : (0 : Int) ≤ (i : Int) * step :=
    mul_nonneg (Int.natCast_nonneg i) (by omega)
  constructor
  · linarith
  · nlinarith

theorem mem_pyRangeDown_bounds {start stop step x : Int} (hs : 1 ≤ step)
    (hx : x ∈ pyRangeDown start stop step) : stop < x ∧ x ≤ start := by
  simp only [pyRangeDown, List.mem_map, List.mem_range] at hx
  obtain ⟨i, hi, rfl⟩ := hx
  have hmul := rangeLen_mul_le hs hi
  have hnn : (0 : Int) ≤ (i : Int) * step :=
    mul_nonneg (Int.natCast_nonneg i) (by omega)
  constructor
  · nlinarith
  · omega

theorem mem_pyRangeUp_one {start stop x : Int} (h1 : start ≤ x) (h2 : x < stop) :
    x ∈ pyRangeUp start stop 1 := by
  simp only [pyRangeUp, List.mem_map, List.mem_range]
  refine ⟨(x - start).toNat, ?_, ?_⟩
  · simp only [rangeLen, Int.toNat_one, Nat.div_one]
    omega
  · have h3 : ((x - start).toNat : Int) = x - start := Int.toNat_of_nonneg (by omega)
    rw [mul_one, h3]
    ring

theorem mem_pyRangeDown_one {start stop x : Int} (h1 : stop < x) (h2 : x ≤ start) :
    x ∈ pyRangeDown start stop 1 := by
  simp only [pyRangeDown, List.mem_map, List.mem_range]
  refine ⟨(start - x).toNat, ?_, ?_⟩
  · simp only [rangeLen, Int.toNat_one, Nat.div_one]
    omega
  · have h3 : ((start - x).toNat : Int) = start - x := Int.toNat_of_nonneg (by omega)
    rw [mul_one, h3]
    ring

theorem spiralLoopF_stop {s top bottom left right : Int}
    (h : ¬(left ≤ right ∧ top ≤ bottom)) :
    ∀ fuel, spiralLoopF s fuel top bottom left right = []
  | 0 => rfl
  | fuel + 1 => by simp [spiralLoopF, h]

theorem spiralLoopF_congr {s : Int} (hs : 1 ≤ s) :
    ∀ (f : Nat) (g : Nat) (top bottom left right : Int),
      loopFuel left right ≤ f → loopFuel left right ≤ g →
      spiralLoopF s f top bottom left right = spiralLoopF s g top bottom left right := by
  intro f
  induction f with
  | zero => intro g top bottom left right hf; exact absurd hf (by simp [loopFuel])
  | succ f ih =>
    intro g top bottom left right hf hg
    match g, hg with
    | g + 1, hg =>
      by_cases hc : left ≤ right ∧ top ≤ bottom
      · simp only [spiralLoopF, if_pos hc]
        congr 1
        by_cases hc' : left + s ≤ right - s ∧ top + s ≤ bottom - s
        · have hfuel : loopFuel (left + s) (right - s) ≤ f := by
            simp only [loopFuel] at hf ⊢
            omega
          have hfuel' : loopFuel (left + s) (right - s) ≤ g := by
            simp only [loopFuel] at hg ⊢
            omega
          exact ih g (top + s) (bottom - s) (left + s) (right - s) hfuel hfuel'
        · rw [spiralLoopF_stop hc', spiralLoopF_stop hc']
      · rw [spiralLoopF_stop hc, spiralLoopF_stop hc]

theorem toNat_div_eq_apCount {a b s : Int} (hs : 1 ≤ s) :
    (b - a + s).toNat / s.toNat = apCount a b s := by
  have hK : 0 < s.toNat := by omega
  by_cases hab : a ≤ b
  · have h1 : (b - a + s).toNat = (b - a).toNat + s.toNat := by omega
    rw [apCount, if_pos hab, h1, Nat.add_div_right _ hK]
  · have h2 : (b - a + s).toNat < s.toNat := by omega
    rw [apCount, if_neg hab, Nat.div_eq_of_lt h2]

theorem bottomEdge_eq_spec {s : Int} (hs : 1 ≤ s) (bottom left right : Int) :
    (pyRangeUp left (right + 1) s).map (fun j => ((bottom, j) : Int × Int)) =
      specBottomEdge s bottom left right := by
  unfold pyRangeUp specBottomEdge
  rw [List.map_map]
  have hlen : rangeLen left (right + 1) s = apCount left right s := by
    unfold rangeLen
    have h1 : right + 1 - left + s - 1 = right - left + s := by ring
    rw [h1, toNat_div_eq_apCount hs]
  rw [hlen]
  rfl

theorem rightEdge_eq_spec {s : Int} (hs : 1 ≤ s) (top bottom right : Int) :
    (pyRangeDown (bottom - s) (top - 1) s).map (fun i => ((i, right) : Int × Int)) =
      specRightEdge s top bottom right := by
  unfold pyRangeDown specRightEdge
  rw [List.map_map]
  have hlen : rangeLen (top - 1) (bottom - s) s = apCount top (bottom - s) s := by
    unfold rangeLen
    have h1 : bottom - s - (top - 1) + s - 1 = bottom - s - top + s := by ring
    rw [h1, toNat_div_eq_apCount hs]
  rw [hlen]
  rfl

theorem topEdge_eq_spec {s : Int} (hs : 1 ≤ s) (top left right : Int) :
    (pyRangeDown (right - s) (left - 1) s).map (fun j => ((top, j) : Int × Int)) =
      specTopEdge s top left right := by
  unfold pyRangeDown specTopEdge
  rw [List.map_map]
  have hlen : rangeLen (left - 1) (right - s) s = apCount left (right - s) s := by
    unfold rangeLen
    have h1 : right - s - (left - 1) + s - 1 = right - s - left + s := by ring
    rw [h1, toNat_div_eq_apCount hs]
  rw [hlen]
  rfl

theorem leftEdge_eq_spec {s : Int} (hs : 1 ≤ s) (top bottom left : Int) :
    (pyRangeUp (top + s) bottom s).map (fun i => ((i, left) : Int × Int)) =
      specLeftEdge s top bottom left := by
  unfold pyRangeUp specLeftEdge
  rw [List.map_map]
  have hlen : rangeLen (top + s) bottom s = apCount (top + s) (bottom - 1) s := by
    unfold rangeLen
    have h1 : bottom - (top + s) + s - 1 = bottom - 1 - (top + s) + s := by ring
    rw [h1, toNat_div_eq_apCount hs]
  rw [hlen]
  rfl

theorem ringEdges_eq_specRing {s : Int} (hs : 1 ≤ s) (top bottom left right : Int) :
    ringEdges s top bottom left right = specRing s top bottom left right := by
  unfold ringEdges specRing
  rw [bottomEdge_eq_spec hs, rightEdge_eq_spec hs, topEdge_eq_spec hs, leftEdge_eq_spec hs]

theorem spiralLoopF_eq_specSpiralF {s : Int} (hs : 1 ≤ s) :
    ∀ (fuel : Nat) (top bottom left right : Int),
      spiralLoopF s fuel top bottom left right = specSpiralF s fuel top bottom left right := by
  intro fuel
  induction fuel with
  | zero => intro top bottom left right; rfl
  | succ f ih =>
    intro top bottom left right
    simp only [spiralLoopF, specSpiralF]
    by_cases hc : left ≤ right ∧ top ≤ bottom
    · rw [if_pos hc, if_pos hc, ringEdges_eq_specRing hs, ih]
    · rw [if_neg hc, if_neg hc]

theorem spiralLoopF_anchor_bounds {s : Int} (hs : 1 ≤ s) :
    ∀ (fuel : Nat) (top bottom left right : Int) (a : Int × Int),
      a ∈ spiralLoopF s fuel top bottom left right →
      top ≤ a.1 ∧ a.1 ≤ bottom ∧ left ≤ a.2 ∧ a.2 ≤ right := by
  intro fuel
  induction fuel with
  | zero =>
    intro top bottom left right a ha
    exact absurd ha (List.not_mem_nil a)
  | succ f ih =>
    intro top bottom left right a ha
    by_cases hc : left ≤ right ∧ top ≤ bottom
    · rw [spiralLoopF, if_pos hc] at ha
      rcases List.mem_append.1 ha with hring | hrec
      · unfold ringEdges at hring
        rcases List.mem_append.1 hring with h123 | h4
        · rcases List.mem_append.1 h123 with h12 | h3
          · rcases List.mem_append.1 h12 with h1 | h2
            · rcases List.mem_map.1 h1 with ⟨j, hj, rfl⟩
              have hb := mem_pyRangeUp_bounds hs hj
              simp only []
              omega
            · rcases List.mem_map.1 h2 with ⟨i, hi, rfl⟩
              have hb := mem_pyRangeDown_bounds hs hi
              simp only []
              omega
          · by_cases htb : top < bottom
            · rw [if_pos htb] at h3
              rcases List.mem_map.1 h3 with ⟨j, hj, rfl⟩
              have hb := mem_pyRangeDown_bounds hs hj
              simp only []
              omega
            · rw [if_neg htb] at h3
              exact absurd h3 (List.not_mem_nil a)
        · by_cases hlr : left < right
          · rw [if_pos hlr] at h4
            rcases List.mem_map.1 h4 with ⟨i, hi, rfl⟩
            have hb := mem_pyRangeUp_bounds hs hi
            simp only []
            omega
          · rw [if_neg hlr] at h4
            exact absurd h4 (List.not_mem_nil a)
      · have hb := ih (top + s) (bottom - s) (left + s) (right - s) a hrec
        omega
    · rw [spiralLoopF_stop hc] at ha
      exact absurd ha (List.not_mem_nil a)

/-- Every anchor generated for an `m × n` grid and tile size `s ≥ 1` is
nonnegative and its `s × s` footprint lies inside the grid. -/
theorem anchor_bounds {m n s : Nat} (hs : 1 ≤ s) {a : Int × Int}
    (ha : a ∈ spiral_tile_anchors m n s) :
    0 ≤ a.1 ∧ 0 ≤ a.2 ∧ a.1.toNat + s ≤ m ∧ a.2.toNat + s ≤ n := by
  have hs' : (1 : Int) ≤ (s : Int) := by exact_mod_cast hs
  have hb := spiralLoopF_anchor_bounds hs' (n + 1) 0 ((m : Int) - s) 0 ((n : Int) - s) a ha
  omega

theorem ringEdges_mem_bottom {s top bottom left right j : Int}
    (hj : j ∈ pyRangeUp left (right + 1) s) :
    (bottom, j) ∈ ringEdges s top bottom left right := by
  unfold ringEdges
  refine List.mem_append.2 (Or.inl ?_)
  refine List.mem_append.2 (Or.inl ?_)
  refine List.mem_append.2 (Or.inl ?_)
  exact List.mem_map.2 ⟨j, hj, rfl⟩

theorem ringEdges_mem_right {s top bottom left right i : Int}
    (hi : i ∈ pyRangeDown (bottom - s) (top - 1) s) :
    (i, right) ∈ ringEdges s top bottom left right := by
  unfold ringEdges
  refine List.mem_append.2 (Or.inl ?_)
  refine List.mem_append.2 (Or.inl ?_)
  refine List.mem_append.2 (Or.inr ?_)
  exact List.mem_map.2 ⟨i, hi, rfl⟩

theorem ringEdges_mem_top {s top bottom left right j : Int} (htb : top < bottom)
    (hj : j ∈ pyRangeDown (right - s) (left - 1) s) :
    (top, j) ∈ ringEdges s top bottom left right := by
  unfold ringEdges
  refine List.mem_append.2 (Or.inl ?_)
  refine List.mem_append.2 (Or.inr ?_)
  rw [if_pos htb]
  exact List.mem_map.2 ⟨j, hj, rfl⟩

theorem ringEdges_mem_left {s top bottom left right i : Int} (hlr : left < right)
    (hi : i ∈ pyRangeUp (top + s) bottom s) :
    (i, left) ∈ ringEdges s top bottom left right := by
  unfold ringEdges
  refine List.mem_append.2 (Or.inr ?_)
  rw [if_pos hlr]
  exact List.mem_map.2 ⟨i, hi, rfl⟩

theorem spiralLoopF_one_mem :
    ∀ (fuel : Nat) (top bottom left right i j : Int),
      loopFuel left right ≤ fuel →
      top ≤ i → i ≤ bottom → left ≤ j → j ≤ right →
      (i, j) ∈ spiralLoopF 1 fuel top bottom left right := by
  intro fuel
  induction fuel with
  | zero =>
    intro top bottom left right i j hf
    intro _ _ _ _
    exact absurd hf (by simp [loopFuel])
  | succ f ih =>
    intro top bottom left right i j hf hti hib hlj hjr
    have hc : left ≤ right ∧ top ≤ bottom := ⟨le_trans hlj hjr, le_trans hti hib⟩
    rw [spiralLoopF, if_pos hc]
    by_cases hib' : i = bottom
    · subst hib'
      exact List.mem_append.2 (Or.inl (ringEdges_mem_bottom
        (mem_pyRangeUp_one hlj (by omega))))
    by_cases hjr' : j = right
    · subst hjr'
      exact List.mem_append.2 (Or.inl (ringEdges_mem_right
        (mem_pyRangeDown_one (by omega) (by omega))))
    by_cases hti' : i = top
    · subst hti'
      exact List.mem_append.2 (Or.inl (ringEdges_mem_top (by omega)
        (mem_pyRangeDown_one (by omega) (by omega))))
    by_cases hjl' : j = left
    · subst hjl'
      exact List.mem_append.2 (Or.inl (ringEdges_mem_left (by omega)
        (mem_pyRangeUp_one (by omega) (by omega))))
    · refine List.mem_append.2 (Or.inr ?_)
      refine ih (top + 1) (bottom - 1) (left + 1) (right - 1) i j ?_ ?_ ?_ ?_ ?_
      · simp only [loopFuel] at hf ⊢
        omega
      all_goals omega

/-- The size-1 anchor sequence visits every cell of the `m × n` grid. -/
theorem anchors_one_cover {m n r c : Nat} (hr : r < m) (hc : c < n) :
    ((r : Int), (c : Int)) ∈ spiral_tile_anchors m n 1 := by
  unfold spiral_tile_anchors
  simp only [Nat.cast_one]
  refine spiralLoopF_one_mem (n + 1) 0 ((m : Int) - 1) 0 ((n : Int) - 1)
    (r : Int) (c : Int) ?_ ?_ ?_ ?_ ?_
  · simp only [loopFuel]
    omega
  all_goals omega

/-- Anchor sequences are empty as soon as the tile does not fit in either
dimension: the initial ring bounds already violate the loop condition. -/
theorem anchors_empty_of_lt {m n s : Nat} (hs : 1 ≤ s) (h : m < s ∨ n < s) :
    spiral_tile_anchors m n s = [] := by
  unfold spiral_tile_anchors
  apply spiralLoopF_stop
  rintro ⟨hA, hB⟩
  omega

/-- Each call of the loop body either leaves the state unchanged or
performs one placement: the top-left cell was empty, for size 1 no other
check is made, for larger sizes the footprint is checked in range and
empty, and grid, snapshot list and event list are all extended. -/
theorem stepA_split (m n size : Nat) (st : TState) (a : Int × Int) :
    stepA m n size st a = st ∨
    (st.grid a.1.toNat a.2.toNat = 0 ∧
     (size = 1 ∨ (a.1.toNat + size ≤ m ∧ a.2.toNat + size ≤ n ∧
        EmptyFoot st.grid a.1.toNat a.2.toNat size)) ∧
     stepA m n size st a =
       ⟨placeTile st.grid a.1.toNat a.2.toNat size,
        st.steps ++ [placeTile st.grid a.1.toNat a.2.toNat size],
        st.events ++ [⟨a.1.toNat, a.2.toNat, size⟩]⟩) := by
  by_cases hsz : size = 1
  · subst hsz
    by_cases hg : st.grid a.1.toNat a.2.toNat = 0
    · right
      exact ⟨hg, Or.inl rfl, by simp [stepA, hg]⟩
    · left
      simp [stepA, hg]
  · by_cases hg : st.grid a.1.toNat a.2.toNat = 0
    · by_cases hchk : a.1.toNat + size ≤ m ∧ a.2.toNat + size ≤ n ∧
        EmptyFoot st.grid a.1.toNat a.2.toNat size
      · right
        refine ⟨hg, Or.inr hchk, ?_⟩
        simp only [stepA]
        rw [if_neg hsz, if_pos hg, if_pos hchk]
      · left
        simp only [stepA]
        rw [if_neg hsz, if_pos hg, if_neg hchk]
    · left
      simp [stepA, hsz, hg]

/-- A placement never erases coverage: values inside the footprint become
the (positive) tile size and values outside are untouched. -/
theorem placeTile_ne_zero {g : Grid} {x y s r c : Nat} (hs : 1 ≤ s)
    (h : g r c ≠ 0) : placeTile g x y s r c ≠ 0 := by
  simp only [placeTile]
  split
  · omega
  · exact h

theorem emptyCount_place_one {m n : Nat} {g : Grid} {x y : Nat} (hx : x < m)
    (hy : y < n) (hg : g x y = 0) :
    emptyCount m n (placeTile g x y 1) + 1 = emptyCount m n g := by
  unfold emptyCount
  have hmem : ((x, y) : Nat × Nat) ∈
      (window m n).filter (fun p => g p.1 p.2 = 0) := by
    simp [window, Finset.mem_filter, Finset.mem_product, Finset.mem_range, hx, hy, hg]
  have hset : (window m n).filter (fun p => placeTile g x y 1 p.1 p.2 = 0)
      = ((window m n).filter (fun p => g p.1 p.2 = 0)).erase (x, y) := by
    ext p
    obtain ⟨r, c⟩ := p
    simp only [Finset.mem_filter, Finset.mem_erase, window, Finset.mem_product,
      Finset.mem_range, placeTile, ne_eq, Prod.mk.injEq]
    constructor
    · rintro ⟨⟨hrm, hcn⟩, hval⟩
      by_cases hf : x ≤ r ∧ r < x + 1 ∧ y ≤ c ∧ c < y + 1
      · rw [if_pos hf] at hval
        omega
      · rw [if_neg hf] at hval
        refine ⟨?_, ⟨hrm, hcn⟩, hval⟩
        intro hcontra
        exact hf ⟨by omega, by omega, by omega, by omega⟩
    · rintro ⟨hne, ⟨hrm, hcn⟩, hval⟩
      refine ⟨⟨hrm, hcn⟩, ?_⟩
      have hf : ¬(x ≤ r ∧ r < x + 1 ∧ y ≤ c ∧ c < y + 1) := by
        intro hcontra
        exact hne ⟨by omega, by omega⟩
      rw [if_neg hf]
      exact hval
  rw [hset, Finset.card_erase_of_mem hmem]
  have hpos := Finset.card_pos.2 ⟨_, hmem⟩
  omega

theorem countNonzero_place {m n : Nat} {g : Grid} {x y s : Nat} (hs : 1 ≤ s)
    (hxm : x + s ≤ m) (hyn : y + s ≤ n) (hemp : EmptyFoot g x y s) :
    countNonzero m n (placeTile g x y s) = countNonzero m n g + s * s := by
  unfold countNonzero
  have hfoot0 : ∀ r c : Nat, x ≤ r → r < x + s → y ≤ c → c < y + s → g r c = 0 := by
    intro r c h1 h2 h3 h4
    have h0 := hemp (r - x) (by omega) (c - y) (by omega)
    have hr' : x + (r - x) = r := by omega
    have hc' : y + (c - y) = c := by omega
    rwa [hr', hc'] at h0
  have hset : (window m n).filter (fun p => placeTile g x y s p.1 p.2 ≠ 0)
      = ((window m n).filter (fun p => g p.1 p.2 ≠ 0)) ∪
        (Finset.Ico x (x + s)) ×ˢ (Finset.Ico y (y + s)) := by
    ext p
    obtain ⟨r, c⟩ := p
    simp only [Finset.mem_filter, Finset.mem_union, Finset.mem_product,
      Finset.mem_Ico, window, Finset.mem_range, placeTile, ne_eq]
    constructor
    · rintro ⟨⟨hrm, hcn⟩, hval⟩
      by_cases hf : x ≤ r ∧ r < x + s ∧ y ≤ c ∧ c < y + s
      · exact Or.inr ⟨⟨hf.1, hf.2.1⟩, hf.2.2.1, hf.2.2.2⟩
      · rw [if_neg hf] at hval
        exact Or.inl ⟨⟨hrm, hcn⟩, hval⟩
    · rintro (⟨⟨hrm, hcn⟩, hval⟩ | ⟨⟨hx1, hx2⟩, hy1, hy2⟩)
      · refine ⟨⟨hrm, hcn⟩, ?_⟩
        by_cases hf : x ≤ r ∧ r < x + s ∧ y ≤ c ∧ c < y + s
        · rw [if_pos hf]
          omega
        · rw [if_neg hf]
          exact hval
      · refine ⟨⟨by omega, by omega⟩, ?_⟩
        rw [if_pos ⟨hx1, hx2, hy1, hy2⟩]
        omega
  have hdisj : Disjoint ((window m n).filter (fun p => g p.1 p.2 ≠ 0))
      ((Finset.Ico x (x + s)) ×ˢ (Finset.Ico y (y + s))) := by
    rw [Finset.disjoint_left]
    rintro ⟨r, c⟩ hp hq
    simp only [Finset.mem_filter, ne_eq] at hp
    simp only [Finset.mem_product, Finset.mem_Ico] at hq
    exact hp.2 (hfoot0 r c hq.1.1 hq.1.2 hq.2.1 hq.2.2)
  rw [hset, Finset.card_union_of_disjoint hdisj, Finset.card_product]
  simp [Nat.card_Ico]

theorem emptyCount_eq_zero {m n : Nat} {g : Grid}
    (h : ∀ r < m, ∀ c < n, g r c ≠ 0) : emptyCount m n g = 0 := by
  unfold emptyCount
  rw [Finset.card_eq_zero, Finset.filter_eq_empty_iff]
  rintro ⟨r, c⟩ hmem
  simp only [window, Finset.mem_product, Finset.mem_range] at hmem
  exact h r hmem.1 c hmem.2

theorem applyPlacements_snoc (L : List Placement) (e : Placement) :
    applyPlacements (L ++ [e]) = placeTile (applyPlacements L) e.x e.y e.s := by
  unfold applyPlacements
  rw [List.foldl_append]
  rfl

theorem emptyFoot_one {g : Grid} {x y : Nat} (hg : g x y = 0) :
    EmptyFoot g x y 1 := by
  intro dr hdr dc hdc
  have hdr0 : dr = 0 := by omega
  have hdc0 : dc = 0 := by omega
  subst hdr0
  subst hdc0
  simpa using hg

theorem TiledBy_snoc {m n : Nat} {L : List Placement} {g : Grid} {x y s : Nat}
    (ht : TiledBy m n L g) (hs : 1 ≤ s) (hxm : x + s ≤ m) (hyn : y + s ≤ n)
    (hemp : EmptyFoot g x y s) :
    TiledBy m n (L ++ [⟨x, y, s⟩]) (placeTile g x y s) := by
  obtain ⟨hrange, hdisj, hcover, hval⟩ := ht
  have hfoot0 : ∀ r c : Nat, x ≤ r → r < x + s → y ≤ c → c < y + s → g r c = 0 := by
    intro r c ha hb hc hd
    have h0 := hemp (r - x) (by omega) (c - y) (by omega)
    have hr' : x + (r - x) = r := by omega
    have hc' : y + (c - y) = c := by omega
    rwa [hr', hc'] at h0
  have hnew_old : ∀ e ∈ L, ∀ r c, InFoot e r c → ¬ InFoot ⟨x, y, s⟩ r c := by
    intro e he r c hef hnf
    have hval' := hval e he r c hef
    have hpos : 1 ≤ e.s := (hrange e he).2.2
    simp only [InFoot] at hnf
    have h0 := hfoot0 r c hnf.1 hnf.2.1 hnf.2.2.1 hnf.2.2.2
    omega
  refine ⟨?_, ?_, ?_, ?_⟩
  · intro e he
    rcases List.mem_append.1 he with h | h
    · exact hrange e h
    · simp only [List.mem_singleton] at h
      subst h
      exact ⟨hxm, hyn, hs⟩
  · rw [List.pairwise_append]
    refine ⟨hdisj, List.pairwise_singleton _ _, ?_⟩
    intro e he e2 he2
    simp only [List.mem_singleton] at he2
    subst he2
    exact hnew_old e he
  · intro r c hnz
    by_cases hf : x ≤ r ∧ r < x + s ∧ y ≤ c ∧ c < y + s
    · refine ⟨⟨x, y, s⟩, List.mem_append.2 (Or.inr (by simp)), ?_⟩
      simp only [InFoot]
      exact hf
    · simp only [placeTile, if_neg hf] at hnz
      obtain ⟨e, heL, hef⟩ := hcover r c hnz
      exact ⟨e, List.mem_append.2 (Or.inl heL), hef⟩
  · intro e he r c hef
    rcases List.mem_append.1 he with h | h
    · have hnf := hnew_old e h r c hef
      simp only [InFoot] at hnf
      simp only [placeTile, if_neg hnf]
      exact hval e h r c hef
    · simp only [List.mem_singleton] at h
      subst h
      simp only [InFoot] at hef
      simp only [placeTile, if_pos hef]

theorem stepA_inv {m n size : Nat} (h1 : 1 ≤ size) (h4 : size ≤ 4) {st : TState}
    (hinv : EngineInv m n st) {a : Int × Int}
    (hbound : a.1.toNat + size ≤ m ∧ a.2.toNat + size ≤ n) :
    EngineInv m n (stepA m n size st a) := by
  rcases stepA_split m n size st a with heq | ⟨hg, hok, heq⟩
  · rwa [heq]
  · have hemp : EmptyFoot st.grid a.1.toNat a.2.toNat size := by
      rcases hok with hone | hbig
      · subst hone
        exact emptyFoot_one hg
      · exact hbig.2.2
    obtain ⟨hchain, hlast, hgrid, hlen, hsnap, htiled⟩ := hinv
    rw [heq]
    constructor
    · -- the snapshot list remains a placement chain
      show List.Chain' (PlacementStepRel m n)
        (zeroGrid :: (st.steps ++ [placeTile st.grid a.1.toNat a.2.toNat size]))
      rw [← List.cons_append]
      rw [List.chain'_append]
      refine ⟨hchain, List.chain'_singleton _, ?_⟩
      intro gx hgx gy hgy
      rw [hlast, Option.mem_some_iff] at hgx
      simp only [List.head?_cons, Option.mem_some_iff] at hgy
      subst hgx
      subst hgy
      exact ⟨a.1.toNat, a.2.toNat, size, h1, h4, hbound.1, hbound.2, hemp, rfl⟩
    constructor
    · -- the grid is the last snapshot
      show (zeroGrid :: (st.steps ++ [placeTile st.grid a.1.toNat a.2.toNat size])).getLast?
        = some (placeTile st.grid a.1.toNat a.2.toNat size)
      rw [← List.cons_append]
      exact List.getLast?_concat _
    constructor
    · -- the grid is the replay of the events
      show placeTile st.grid a.1.toNat a.2.toNat size
        = applyPlacements (st.events ++ [⟨a.1.toNat, a.2.toNat, size⟩])
      rw [applyPlacements_snoc, ← hgrid]
    constructor
    · -- lengths agree
      simp [hlen]
    constructor
    · -- snapshot i is the replay of the first i+1 events
      intro i h
      show (st.steps ++ [placeTile st.grid a.1.toNat a.2.toNat size]).get ⟨i, h⟩
        = applyPlacements
            ((st.events ++ [(⟨a.1.toNat, a.2.toNat, size⟩ : Placement)]).take (i + 1))
      by_cases hi : i < st.steps.length
      · have htake : (st.events ++ [(⟨a.1.toNat, a.2.toNat, size⟩ : Placement)]).take (i + 1)
            = st.events.take (i + 1) :=
          List.take_append_of_le_length (by omega)
        rw [htake, ← hsnap i hi]
        simp only [List.get_eq_getElem]
        exact List.getElem_append_left hi
      · have hlen2 : (st.steps ++ [placeTile st.grid a.1.toNat a.2.toNat size]).length
            = st.steps.length + 1 := by simp
        have hi' : i = st.steps.length := by
          simp only [List.length_append, List.length_singleton] at h
          omega
        subst hi'
        have htake : (st.events ++ [(⟨a.1.toNat, a.2.toNat, size⟩ : Placement)]).take
              (st.steps.length + 1)
            = st.events ++ [(⟨a.1.toNat, a.2.toNat, size⟩ : Placement)] :=
          List.take_of_length_le (by simp [← hlen])
        rw [htake]
        have hget : (st.steps ++ [placeTile st.grid a.1.toNat a.2.toNat size]).get
            ⟨st.steps.length, h⟩ = placeTile st.grid a.1.toNat a.2.toNat size := by
          simp only [List.get_eq_getElem]
          exact List.getElem_concat_length _ _ _ rfl _
        rw [hget, applyPlacements_snoc, ← hgrid]
    · -- every event prefix tiles its replay
      intro k
      show TiledBy m n ((st.events ++ [(⟨a.1.toNat, a.2.toNat, size⟩ : Placement)]).take k)
        (applyPlacements
          ((st.events ++ [(⟨a.1.toNat, a.2.toNat, size⟩ : Placement)]).take k))
      by_cases hk : k ≤ st.events.length
      · rw [List.take_append_of_le_length hk]
        exact htiled k
      · have htake : (st.events ++ [(⟨a.1.toNat, a.2.toNat, size⟩ : Placement)]).take k
            = st.events ++ [(⟨a.1.toNat, a.2.toNat, size⟩ : Placement)] :=
          List.take_of_length_le (by simp; omega)
        rw [htake]
        have htB := htiled st.events.length
        rw [List.take_length] at htB
        rw [applyPlacements_snoc]
        exact TiledBy_snoc htB h1 hbound.1 hbound.2 (hgrid ▸ hemp)

theorem foldl_stepA_inv {m n size : Nat} (h1 : 1 ≤ size) (h4 : size ≤ 4) :
    ∀ (l : List (Int × Int)) (st : TState),
      (∀ a ∈ l, a.1.toNat + size ≤ m ∧ a.2.toNat + size ≤ n) →
      EngineInv m n st → EngineInv m n (l.foldl (stepA m n size) st)
  | [], st, _, hinv => hinv
  | a :: l, st, hb, hinv =>
    foldl_stepA_inv h1 h4 l (stepA m n size st a)
      (fun x hx => hb x (List.mem_cons_of_mem a hx))
      (stepA_inv h1 h4 hinv (hb a (List.mem_cons_self a l)))

theorem runSize_inv {m n size : Nat} (h1 : 1 ≤ size) (h4 : size ≤ 4) {st : TState}
    (hinv : EngineInv m n st) : EngineInv m n (runSize m n size st) :=
  foldl_stepA_inv h1 h4 _ st
    (fun a ha => by
      have hb := anchor_bounds h1 ha
      exact ⟨hb.2.2.1, hb.2.2.2⟩)
    hinv

theorem init_inv (m n : Nat) : EngineInv m n ⟨zeroGrid, [], []⟩ := by
  refine ⟨List.chain'_singleton _, rfl, rfl, rfl, ?_, ?_⟩
  · intro i h
    exact absurd h (by simp)
  · intro k
    dsimp only
    rw [List.take_nil]
    refine ⟨?_, ?_, ?_, ?_⟩
    · intro e he
      simp at he
    · simp
    · intro r c hnz
      exact absurd rfl hnz
    · intro e he
      simp at he

theorem fillState_inv (m n : Nat) : EngineInv m n (fillState m n) := by
  rw [show fillState m n = runSize m n 1 (runSize m n 2 (runSize m n 3
      (runSize m n 4 ⟨zeroGrid, [], []⟩))) from rfl]
  exact runSize_inv (by omega) (by omega)
    (runSize_inv (by omega) (by omega)
      (runSize_inv (by omega) (by omega)
        (runSize_inv (by omega) (by omega) (init_inv m n))))

theorem stepA_steps_append (m n size : Nat) (st : TState) (a : Int × Int) :
    ∃ t, (stepA m n size st a).steps = st.steps ++ t := by
  rcases stepA_split m n size st a with heq | ⟨_, _, heq⟩
  · exact ⟨[], by rw [heq, List.append_nil]⟩
  · exact ⟨[placeTile st.grid a.1.toNat a.2.toNat size], by rw [heq]⟩

theorem foldl_steps_append (m n size : Nat) :
    ∀ (l : List (Int × Int)) (st : TState),
      ∃ t, (l.foldl (stepA m n size) st).steps = st.steps ++ t
  | [], st => ⟨[], by simp⟩
  | a :: l, st => by
    obtain ⟨t1, ht1⟩ := stepA_steps_append m n size st a
    obtain ⟨t2, ht2⟩ := foldl_steps_append m n size l (stepA m n size st a)
    exact ⟨t1 ++ t2, by rw [List.foldl_cons, ht2, ht1, List.append_assoc]⟩

theorem stepA_grid_nonzero {m n size : Nat} (h1 : 1 ≤ size) {st : TState}
    {r c : Nat} (h : st.grid r c ≠ 0) (a : Int × Int) :
    (stepA m n size st a).grid r c ≠ 0 := by
  rcases stepA_split m n size st a with heq | ⟨_, _, heq⟩
  · rwa [heq]
  · rw [heq]
    exact placeTile_ne_zero h1 h

theorem foldl_grid_nonzero {m n size : Nat} (h1 : 1 ≤ size) {r c : Nat} :
    ∀ (l : List (Int × Int)) (st : TState), st.grid r c ≠ 0 →
      (l.foldl (stepA m n size) st).grid r c ≠ 0
  | [], _, h => h
  | a :: l, st, h =>
    foldl_grid_nonzero h1 l (stepA m n size st a) (stepA_grid_nonzero h1 h a)

theorem stepA_one_value {m n : Nat} (st : TState) (a : Int × Int) (r c : Nat) :
    (stepA m n 1 st a).grid r c = st.grid r c ∨
    (st.grid r c = 0 ∧ (stepA m n 1 st a).grid r c = 1) := by
  rcases stepA_split m n 1 st a with heq | ⟨hg, _, heq⟩
  · rw [heq]
    exact Or.inl rfl
  · rw [heq]
    simp only [placeTile]
    by_cases hf : a.1.toNat ≤ r ∧ r < a.1.toNat + 1 ∧ a.2.toNat ≤ c ∧ c < a.2.toNat + 1
    · rw [if_pos hf]
      right
      have hr : r = a.1.toNat := by omega
      have hcc : c = a.2.toNat := by omega
      rw [hr, hcc]
      exact ⟨hg, rfl⟩
    · rw [if_neg hf]
      exact Or.inl rfl

theorem foldl_one_value {m n : Nat} (r c : Nat) :
    ∀ (l : List (Int × Int)) (st : TState),
      (l.foldl (stepA m n 1) st).grid r c = st.grid r c ∨
      (st.grid r c = 0 ∧ (l.foldl (stepA m n 1) st).grid r c = 1)
  | [], _ => Or.inl rfl
  | a :: l, st => by
    rw [List.foldl_cons]
    rcases foldl_one_value r c l (stepA m n 1 st a) with hrec | ⟨h0, hone⟩
    · rcases stepA_one_value st a r c with hkeep | ⟨h0, hone⟩
      · exact Or.inl (hrec.trans hkeep)
      · exact Or.inr ⟨h0, hrec.trans hone⟩
    · rcases stepA_one_value st a r c with hkeep | ⟨h0', _⟩
      · exact Or.inr ⟨hkeep ▸ h0, hone⟩
      · exact Or.inr ⟨h0', hone⟩

theorem foldl_one_fills {m n r c : Nat} :
    ∀ (l : List (Int × Int)) (st : TState),
      (((r : Int), (c : Int)) ∈ l) →
      (l.foldl (stepA m n 1) st).grid r c ≠ 0
  | a :: l, st, hmem => by
    rw [List.foldl_cons]
    rcases List.mem_cons.1 hmem with ha | hl
    · have hstep : (stepA m n 1 st a).grid r c ≠ 0 := by
        subst ha
        rcases stepA_split m n 1 st ((r : Int), (c : Int)) with heq | ⟨_, _, heq⟩
        · -- a skip at anchor (r, c) means the cell was already nonzero
          rcases stepA_split m n 1 st ((r : Int), (c : Int)) with heq2 | ⟨hg2, _, heq2⟩
          · by_cases hg : st.grid r c = 0
            · exfalso
              have : stepA m n 1 st ((r : Int), (c : Int)) ≠ st := by
                simp only [stepA, if_pos rfl]
                simp only [Int.toNat_natCast]
                rw [if_pos hg]
                intro hcontra
                have hlen := congrArg (fun q => q.steps.length) hcontra
                simp at hlen
              exact this heq
            · rw [heq]
              exact hg
          · rw [heq2]
            simp only [placeTile, Int.toNat_natCast]
            rw [if_pos ⟨le_refl r, by omega, le_refl c, by omega⟩]
            omega
        · rw [heq]
          simp only [placeTile, Int.toNat_natCast]
          rw [if_pos ⟨le_refl r, by omega, le_refl c, by omega⟩]
          omega
      exact foldl_grid_nonzero (by omega) l _ hstep
    · exact foldl_one_fills l (stepA m n 1 st a) hl

theorem stepA_one_count {m n : Nat} {st : TState} {a : Int × Int}
    (hb : a.1.toNat + 1 ≤ m ∧ a.2.toNat + 1 ≤ n) :
    (stepA m n 1 st a).steps.length + emptyCount m n (stepA m n 1 st a).grid
      = st.steps.length + emptyCount m n st.grid := by
  rcases stepA_split m n 1 st a with heq | ⟨hg, _, heq⟩
  · rw [heq]
  · rw [heq]
    have hcount := emptyCount_place_one (m := m) (n := n)
      (by omega : a.1.toNat < m) (by omega : a.2.toNat < n) hg
    simp only [List.length_append, List.length_singleton]
    omega

theorem foldl_one_count {m n : Nat} :
    ∀ (l : List (Int × Int)) (st : TState),
      (∀ a ∈ l, a.1.toNat + 1 ≤ m ∧ a.2.toNat + 1 ≤ n) →
      (l.foldl (stepA m n 1) st).steps.length
          + emptyCount m n (l.foldl (stepA m n 1) st).grid
        = st.steps.length + emptyCount m n st.grid
  | [], _, _ => rfl
  | a :: l, st, hb => by
    rw [List.foldl_cons]
    rw [foldl_one_count l (stepA m n 1 st a)
      (fun x hx => hb x (List.mem_cons_of_mem a hx))]
    exact stepA_one_count (hb a (List.mem_cons_self a l))

theorem runSize_one_covers {m n : Nat} (st : TState) {r c : Nat} (hr : r < m)
    (hc : c < n) : (runSize m n 1 st).grid r c ≠ 0 :=
  foldl_one_fills _ st (anchors_one_cover hr hc)

theorem runSize_one_count (m n : Nat) (st : TState) :
    (runSize m n 1 st).steps.length + emptyCount m n (runSize m n 1 st).grid
      = st.steps.length + emptyCount m n st.grid :=
  foldl_one_count _ st (fun a ha => by
    have hb := anchor_bounds (by omega) ha
    exact ⟨hb.2.2.1, hb.2.2.2⟩)

theorem runSize_one_value (m n : Nat) (st : TState) (r c : Nat) :
    (runSize m n 1 st).grid r c = st.grid r c ∨
    (st.grid r c = 0 ∧ (runSize m n 1 st).grid r c = 1) :=
  foldl_one_value r c _ st

theorem fillState_zero_left (n : Nat) : fillState 0 n = ⟨zeroGrid, [], []⟩ := by
  have h4 : spiral_tile_anchors 0 n 4 = [] := anchors_empty_of_lt (by omega) (Or.inl (by omega))
  have h3 : spiral_tile_anchors 0 n 3 = [] := anchors_empty_of_lt (by omega) (Or.inl (by omega))
  have h2 : spiral_tile_anchors 0 n 2 = [] := anchors_empty_of_lt (by omega) (Or.inl (by omega))
  have h1 : spiral_tile_anchors 0 n 1 = [] := anchors_empty_of_lt (by omega) (Or.inl (by omega))
  simp [fillState, TILE_SIZES, runSize, h4, h3, h2, h1]

theorem fillState_zero_right (m : Nat) : fillState m 0 = ⟨zeroGrid, [], []⟩ := by
  have h4 : spiral_tile_anchors m 0 4 = [] := anchors_empty_of_lt (by omega) (Or.inr (by omega))
  have h3 : spiral_tile_anchors m 0 3 = [] := anchors_empty_of_lt (by omega) (Or.inr (by omega))
  have h2 : spiral_tile_anchors m 0 2 = [] := anchors_empty_of_lt (by omega) (Or.inr (by omega))
  have h1 : spiral_tile_anchors m 0 1 = [] := anchors_empty_of_lt (by omega) (Or.inr (by omega))
  simp [fillState, TILE_SIZES, runSize, h4, h3, h2, h1]

/-- C1: for every pair of positive integers H, W the tiling engine
`fill_room_spiral_tile_anchors_animated` returns a non-empty ordered
snapshot sequence, the last snapshot is the final grid, and the final grid
has zero empty cells (every cell holds a nonzero tile size). -/
theorem C1_full_coverage (H W : Nat) (hH : 1 ≤ H) (hW : 1 ≤ W) :
    fill_room_spiral_tile_anchors_animated H W ≠ [] ∧
    (fill_room_spiral_tile_anchors_animated H W).getLast? = some (finalGrid H W) ∧
    (∀ r < H, ∀ c < W, finalGrid H W r c ≠ 0) := by
  obtain ⟨hchain, hlast, hgrid, hlen, hsnap, htiled⟩ := fillState_inv H W
  have hcover : ∀ r < H, ∀ c < W, finalGrid H W r c ≠ 0 := by
    intro r hr c hc
    exact runSize_one_covers (preOneState H W) hr hc
  have hne : fill_room_spiral_tile_anchors_animated H W ≠ [] := by
    intro hnil
    have hev : (fillState H W).events = [] := by
      apply List.length_eq_zero.1
      rw [← hlen]
      rw [show (fillState H W).steps = fill_room_spiral_tile_anchors_animated H W from rfl,
        hnil]
      rfl
    apply hcover 0 hH 0 hW
    show (fillState H W).grid 0 0 = 0
    rw [hgrid, hev]
    rfl
  refine ⟨hne, ?_, hcover⟩
  rcases hsteps : fill_room_spiral_tile_anchors_animated H W with _ | ⟨b, t⟩
  · exact absurd hsteps hne
  · have h2 := hlast
    rw [show (fillState H W).steps = fill_room_spiral_tile_anchors_animated H W from rfl,
      hsteps, List.getLast?_cons_cons] at h2
    exact h2

theorem C1_full_coverage_witness :
    fill_room_spiral_tile_anchors_animated 2 3 ≠ [] ∧
    (fill_room_spiral_tile_anchors_animated 2 3).getLast? = some (finalGrid 2 3) ∧
    (∀ r < 2, ∀ c < 3, finalGrid 2 3 r c ≠ 0) :=
  C1_full_coverage 2 3 (by decide) (by decide)

/-- C2: for every grid dimensions H, W and tile size s ≥ 1, the anchor
list produced by `spiral_tile_anchors` equals the spec's
SpiralAnchorSequence reference definition (ring peeling with bottom,
right, top, left edges and the stated guards). -/
theorem C2_anchor_sequence_matches_spec (H W s : Nat) (hs : 1 ≤ s) :
    spiral_tile_anchors H W s = specSpiralAnchorSequence H W s := by
  unfold spiral_tile_anchors specSpiralAnchorSequence
  exact spiralLoopF_eq_specSpiralF (by exact_mod_cast hs) (W + 1) 0 _ 0 _

theorem C2_anchor_sequence_matches_spec_witness :
    spiral_tile_anchors 5 5 2 = specSpiralAnchorSequence 5 5 2 :=
  C2_anchor_sequence_matches_spec 5 5 2 (by decide)

/-- C3: snapshots are independent value copies: the i-th returned snapshot
equals the grid state immediately after the i-th successful placement (the
replay of the first i+1 placement events), and processing further anchors
only ever appends to the snapshot list — previously returned snapshots are
never modified. -/
theorem C3_snapshot_deep_copies (m n : Nat) :
    (fill_room_spiral_tile_anchors_animated m n).length
        = (fillState m n).events.length ∧
    (∀ i (h : i < (fill_room_spiral_tile_anchors_animated m n).length),
        (fill_room_spiral_tile_anchors_animated m n).get ⟨i, h⟩
          = applyPlacements ((fillState m n).events.take (i + 1))) ∧
    (∀ (size : Nat) (l : List (Int × Int)) (st : TState),
        ∃ t, (l.foldl (stepA m n size) st).steps = st.steps ++ t) := by
  obtain ⟨_, _, _, hlen, hsnap, _⟩ := fillState_inv m n
  exact ⟨hlen, hsnap, fun size l st => foldl_steps_append m n size l st⟩

theorem C3_snapshot_deep_copies_witness :
    (fill_room_spiral_tile_anchors_animated 2 2).get ⟨0, by decide⟩
      = applyPlacements ((fillState 2 2).events.take 1) :=
  (C3_snapshot_deep_copies 2 2).2.1 0 (by decide)

/-- C4 counterexample: the size-4 anchor sequence for the 5×5 room is not
the singleton [(1, 1)] the claim states — the single anchor is (1, 0)
(bottom row is scanned from `left = 0` with step 4). -/
theorem C4_counterexample :
    spiral_tile_anchors 5 5 4 ≠ [((1 : Int), (1 : Int))] := by decide

/-- C4 (amended): for H = W = 5 the size-4 anchor sequence is exactly
[(1, 0)]; exactly one 4×4 tile is placed, at anchor (1, 0); and after the
cascading passes with sizes 3, 2, 1 the final grid has all 25 cells
nonzero. -/
theorem C4_five_by_five_trace :
    spiral_tile_anchors 5 5 4 = [((1 : Int), (0 : Int))] ∧
    (fillState 5 5).events.filter (fun e => e.s = 4) = [⟨1, 0, 4⟩] ∧
    countNonzero 5 5 (finalGrid 5 5) = 25 := by decide

/-- C5 counterexample: non-positive integer dimensions are not rejected:
with parsed width 5 and parsed height 0 the program reports no error
(`main` only catches integer-parse failures), refuting the claim that
every non-positive dimension is reported as an error before placement. -/
theorem C5_counterexample :
    ¬ (∀ w h : Int, h ≤ 0 ∨ w ≤ 0 →
        ∃ msg, mainModel (some w) (some h) = Except.error msg) := by
  intro hclaim
  obtain ⟨msg, hmsg⟩ := hclaim 5 0 (Or.inl le_rfl)
  rw [show mainModel (some 5) (some 0)
      = Except.ok (fill_room_spiral_tile_anchors_animated 0 5) from rfl] at hmsg
  simp at hmsg

/-- C5 (amended): only unparsable input is rejected: when either input
fails integer parsing, `main` reports the invalid-input message
immediately, before any placement attempt, and no snapshot sequence is
produced; a negative parsed dimension only fails later, inside numpy's
zeros; a zero dimension is not rejected at all — the engine runs and
returns an empty snapshot sequence with no error. -/
theorem C5_error_handling :
    (∀ hIn : Option Int, mainModel none hIn
        = Except.error "Invalid input. Please enter integer values.") ∧
    (∀ w : Int, mainModel (some w) none
        = Except.error "Invalid input. Please enter integer values.") ∧
    (∀ w h : Int, h < 0 ∨ w < 0 → mainModel (some w) (some h)
        = Except.error "ValueError: negative dimensions are not allowed") ∧
    (∀ w : Int, 0 ≤ w → mainModel (some w) (some 0) = Except.ok []) := by
  refine ⟨fun hIn => rfl, fun w => rfl, ?_, ?_⟩
  · intro w h hneg
    simp only [mainModel]
    rw [if_pos hneg]
  · intro w hw
    have hempty : fill_room_spiral_tile_anchors_animated 0 w.toNat = [] := by
      unfold fill_room_spiral_tile_anchors_animated
      rw [fillState_zero_left]
    simp only [mainModel]
    rw [if_neg (by omega : ¬ ((0 : Int) < 0 ∨ w < 0))]
    rw [show ((0 : Int).toNat) = 0 from rfl, hempty]

theorem C5_error_handling_witness :
    mainModel (some 2) (some (-1))
        = Except.error "ValueError: negative dimensions are not allowed" ∧
    mainModel (some 3) (some 0) = Except.ok [] :=
  ⟨C5_error_handling.2.2.1 2 (-1) (Or.inl (by decide)),
   C5_error_handling.2.2.2 3 (by decide)⟩

/-- C6: the size-1 anchor sequence visits every cell position; every cell
still empty when the size-1 pass begins holds value 1 at the end (filled
by a 1×1 tile, and tiles never overlap by C7, so by exactly one); cells
already covered keep their value; and the number of snapshots appended
during the size-1 pass equals the number of cells that were empty when the
pass began. -/
theorem C6_size_one_guarantee (H W : Nat) (hH : 1 ≤ H) (hW : 1 ≤ W) :
    (∀ r < H, ∀ c < W, ((r : Int), (c : Int)) ∈ spiral_tile_anchors H W 1) ∧
    (∀ r < H, ∀ c < W, (preOneState H W).grid r c = 0 → finalGrid H W r c = 1) ∧
    (∀ r c, (preOneState H W).grid r c ≠ 0 →
        finalGrid H W r c = (preOneState H W).grid r c) ∧
    (fill_room_spiral_tile_anchors_animated H W).length
      = (preOneState H W).steps.length + emptyCount H W (preOneState H W).grid := by
  refine ⟨?_, ?_, ?_, ?_⟩
  · intro r hr c hc
    exact anchors_one_cover hr hc
  · intro r hr c hc h0
    have hnz : (runSize H W 1 (preOneState H W)).grid r c ≠ 0 :=
      runSize_one_covers _ hr hc
    rcases runSize_one_value H W (preOneState H W) r c with hkeep | ⟨_, hone⟩
    · exact absurd (hkeep.trans h0) hnz
    · exact hone
  · intro r c hnzold
    rcases runSize_one_value H W (preOneState H W) r c with hkeep | ⟨h0, _⟩
    · exact hkeep
    · exact absurd h0 hnzold
  · have hq := runSize_one_count H W (preOneState H W)
    have hzero : emptyCount H W (runSize H W 1 (preOneState H W)).grid = 0 :=
      emptyCount_eq_zero (fun r hr c hc => runSize_one_covers _ hr hc)
    show (runSize H W 1 (preOneState H W)).steps.length = _
    omega

theorem C6_size_one_guarantee_witness :
    ((2 : Int), (1 : Int)) ∈ spiral_tile_anchors 3 3 1 ∧
    (fill_room_spiral_tile_anchors_animated 3 3).length
      = (preOneState 3 3).steps.length + emptyCount 3 3 (preOneState 3 3).grid :=
  ⟨(C6_size_one_guarantee 3 3 (by decide) (by decide)).1 2 (by decide) 1 (by decide),
   (C6_size_one_guarantee 3 3 (by decide) (by decide)).2.2.2⟩

/-- C7: consecutive snapshots differ by exactly one placement into an
in-range footprint that was entirely empty just before (so no two placed
tiles ever overlap), and every snapshot is exactly tiled by a list of
pairwise-disjoint axis-aligned s×s squares whose cells all hold the value
s. -/
theorem C7_no_overlap_invariant (m n : Nat) :
    List.Chain' (PlacementStepRel m n)
      (zeroGrid :: fill_room_spiral_tile_anchors_animated m n) ∧
    (∀ g ∈ fill_room_spiral_tile_anchors_animated m n, ∃ L, TiledBy m n L g) := by
  obtain ⟨hchain, _, _, _, hsnap, htiled⟩ := fillState_inv m n
  refine ⟨hchain, ?_⟩
  intro g hg
  rw [List.mem_iff_get] at hg
  obtain ⟨i, hi⟩ := hg
  refine ⟨(fillState m n).events.take (i.1 + 1), ?_⟩
  have hgi : (fillState m n).steps.get i
      = applyPlacements ((fillState m n).events.take (i.1 + 1)) := hsnap i.1 i.2
  rw [← hi]
  rw [show (fill_room_spiral_tile_anchors_animated m n).get i
      = (fillState m n).steps.get i from rfl, hgi]
  exact htiled (i.1 + 1)

/-- C8: along the snapshot sequence, starting from the all-zero grid, the
nonzero-cell count never decreases, and at the step that places a size-s
tile it increases by exactly s·s. -/
theorem C8_monotone_growth (m n : Nat) :
    countNonzero m n zeroGrid = 0 ∧
    List.Chain' (fun g gNext => countNonzero m n g ≤ countNonzero m n gNext ∧
        ∃ s, countNonzero m n gNext = countNonzero m n g + s * s ∧
          ∃ x y, 1 ≤ s ∧ x + s ≤ m ∧ y + s ≤ n ∧ EmptyFoot g x y s ∧
            gNext = placeTile g x y s)
      (zeroGrid :: fill_room_spiral_tile_anchors_animated m n) := by
  constructor
  · unfold countNonzero
    apply Finset.card_eq_zero.2
    rw [Finset.filter_eq_empty_iff]
    intro p _
    simp [zeroGrid]
  · have hchain := (fillState_inv m n).1
    refine hchain.imp ?_
    rintro g gNext ⟨x, y, s, h1, h4, hxm, hyn, hemp, rfl⟩
    have hcount := countNonzero_place h1 hxm hyn hemp
    exact ⟨by omega, s, hcount, x, y, h1, hxm, hyn, hemp, rfl⟩

/-- C9: a tile size that exceeds either dimension yields an empty anchor
sequence (so that size places nothing and touches no cell); zero
dimensions give an empty snapshot sequence; and every generated anchor is
nonnegative with its whole footprint inside the grid, so no out-of-bounds
access occurs. -/
theorem C9_degenerate_safety :
    (∀ m n s : Nat, 1 ≤ s → m < s ∨ n < s → spiral_tile_anchors m n s = []) ∧
    (∀ k : Nat, fill_room_spiral_tile_anchors_animated 0 k = [] ∧
        fill_room_spiral_tile_anchors_animated k 0 = []) ∧
    (∀ m n s : Nat, 1 ≤ s → ∀ a ∈ spiral_tile_anchors m n s,
        0 ≤ a.1 ∧ 0 ≤ a.2 ∧ a.1.toNat + s ≤ m ∧ a.2.toNat + s ≤ n) := by
  refine ⟨fun m n s hs h => anchors_empty_of_lt hs h, ?_, ?_⟩
  · intro k
    constructor
    · unfold fill_room_spiral_tile_anchors_animated
      rw [fillState_zero_left]
    · unfold fill_room_spiral_tile_anchors_animated
      rw [fillState_zero_right]
  · intro m n s hs a ha
    exact anchor_bounds hs ha

theorem C9_degenerate_safety_witness :
    spiral_tile_anchors 2 3 4 = [] ∧
    fill_room_spiral_tile_anchors_animated 0 7 = [] :=
  ⟨C9_degenerate_safety.1 2 3 4 (by decide) (Or.inl (by decide)),
   (C9_degenerate_safety.2.1 7).1⟩

/-- C10: the ring-peel loop of `spiral_tile_anchors` terminates: every
iteration budget of at least n + 1 computes the same anchor list — the
loop condition fails within the budget because each iteration shrinks the
horizontal span by 2s — so the anchor computation (and with it the whole
tiling) is a total function of the inputs. -/
theorem C10_loop_terminates (m n s : Nat) (hs : 1 ≤ s) (fuel : Nat)
    (hf : n + 1 ≤ fuel) :
    spiralLoopF s fuel 0 ((m : Int) - s) 0 ((n : Int) - s)
      = spiral_tile_anchors m n s := by
  unfold spiral_tile_anchors
  apply spiralLoopF_congr (by exact_mod_cast hs)
  · simp only [loopFuel]
    omega
  · simp only [loopFuel]
    omega

theorem C10_loop_terminates_witness :
    spiralLoopF 2 50 0 ((5 : Int) - 2) 0 ((5 : Int) - 2)
      = spiral_tile_anchors 5 5 2 :=
  C10_loop_terminates 5 5 2 (by decide) 50 (by decide)

end RoomTiling
